import Mathlib

/-!
Verification of the admission and resource-accounting core described in the
repository's specification, against the repository's code.

The only component whose implementation is present in the repository's files
is the policy rule registry (`nova/policies/base.py`); it is embedded
directly.  The `TopologyMatcher`, `ResourceLedger`, `QuotaGuard`, `Scheduler`
and `ReshapeCoordinator` components exist in the repository only through
their functional tests, so they are modelled from the specification's words;
each such definition says so in its doc comment.
-/

/- ## Policy rules (`nova/policies/base.py`) -/

/-- A policy rule default, as `oslo_policy.policy.RuleDefault(name, check_str,
description)` is used in `nova/policies/base.py`. -/
structure RuleDefault where
  name : String
  check_str : String
  description : String
deriving DecidableEq

/-- The module-level list `rules` of `nova/policies/base.py`. -/
def rules : List RuleDefault := [
  ⟨"context_is_admin",
   "role:admin",
   "Decides what is required for the 'is_admin:True' check to succeed."⟩,
  ⟨"admin_or_owner",
   "is_admin:True or project_id:%(project_id)s",
   "Default rule for most non-Admin APIs."⟩,
  ⟨"admin_api",
   "is_admin:True",
   "Default rule for most Admin APIs."⟩,
  ⟨"system_admin_api",
   "role:admin and system_scope:all",
   "Default rule for System Admin APIs."⟩,
  ⟨"system_reader_api",
   "role:reader and system_scope:all",
   "Default rule for System level read only APIs."⟩,
  ⟨"project_member_api",
   "role:member and project_id:%(project_id)s",
   "Default rule for Project level non admin APIs."⟩,
  ⟨"project_reader_api",
   "role:reader and project_id:%(project_id)s",
   "Default rule for Project level read only APIs."⟩,
  ⟨"system_admin_or_owner",
   "rule:system_admin_api or rule:project_member_api",
   "Default rule for System admin+owner APIs."⟩,
  ⟨"system_or_project_reader",
   "rule:system_reader_api or rule:project_reader_api",
   "Default rule for System+Project read only APIs."⟩]

/-- `list_rules()` of `nova/policies/base.py`: returns the module-level
`rules` list. -/
def list_rules : List RuleDefault := rules

/-- Splits a character list into space-separated words (`cur` is the current
word, reversed). -/
def wordsAux : List Char → List Char → List (List Char)
  | [], cur => [cur.reverse]
  | c :: cs, cur =>
    if c = ' ' then cur.reverse :: wordsAux cs [] else wordsAux cs (c :: cur)

/-- The space-separated words of a string. -/
def words (s : String) : List (List Char) := wordsAux s.data []

/-- The rule names a check string references: every space-separated token of
the form `rule:NAME` contributes `NAME`. -/
def ruleRefs (s : String) : List String :=
  (words s).filterMap fun tok =>
    if "rule:".data.isPrefixOf tok then some (String.mk (tok.drop 5)) else none

/- ## ResourceLedger (modelled from the spec, section 4.2) -/

/-- Modelled from the spec: an **Inventory** record of a resource provider for
one resource class: `total`, `reserved`, `allocation_ratio`, `min_unit`,
`max_unit`, `step`.  The implementation of the ledger is not under the
repository's files; only its functional tests are. -/
structure Inventory where
  total : Nat
  reserved : Nat
  allocation_ratio : Rat
  min_unit : Nat
  max_unit : Nat
  step : Nat
deriving DecidableEq

/-- Modelled from the spec: an **Allocation** row
`(consumer_id, provider_id, resource_class → amount)`, together with the
physical cores the claim pinned (the ledger tracks which cores are free). -/
structure Alloc where
  consumer : Nat
  provider : Nat
  resources : List (String × Nat)
  cores : List Nat
deriving DecidableEq

/-- Modelled from the spec: the **ResourceLedger** state — a per-provider
generation counter, the inventory rows keyed by `(provider, class)`, the
allocation rows, and the in-flight migration records
(workload id ↦ migration id) created by `move` and released by
`confirm`/`revert`. -/
structure Ledger where
  gens : List (Nat × Nat)
  invs : List ((Nat × String) × Inventory)
  allocs : List Alloc
  migrations : List (Nat × Nat)
deriving DecidableEq

/-- The provider's current generation (a provider never written has
generation 0). -/
def genOf (l : Ledger) (p : Nat) : Nat := (l.gens.lookup p).getD 0

/-- The inventory row of `(provider, class)`, when present. -/
def invOf (l : Ledger) (p : Nat) (c : String) : Option Inventory :=
  l.invs.lookup (p, c)

/-- Modelled from the spec: usable capacity
`(total − reserved) × allocation_ratio` of one inventory record. -/
def usable (inv : Inventory) : Rat := ((inv.total - inv.reserved : Nat) : Rat) * inv.allocation_ratio

/-- Usable capacity of `(provider, class)`: a pair with no inventory row has
no capacity. -/
def usableAt (l : Ledger) (p : Nat) (c : String) : Rat :=
  match invOf l p c with
  | some inv => usable inv
  | none => 0

/-- Whether `s` is at most the usable capacity of `inv`, computed by
cross-multiplication over the integers (equivalent to the rational
comparison `s ≤ usable inv`, see `capCmp_iff`). -/
def capCmp (inv : Inventory) (s : Nat) : Bool :=
  decide ((s : Int) * inv.allocation_ratio.den ≤
    ((inv.total - inv.reserved : Nat) : Int) * inv.allocation_ratio.num)

/-- The amount an allocation row commits for one resource class. -/
def amountFor (a : Alloc) (c : String) : Nat := (a.resources.lookup c).getD 0

/-- Sum over a list of allocation rows of the amounts committed against
`(provider, class)`. -/
def sumAmounts (p : Nat) (c : String) : List Alloc → Nat
  | [] => 0
  | a :: as => (if a.provider = p then amountFor a c else 0) + sumAmounts p c as

/-- The total amount the ledger's allocations commit against
`(provider, class)`. -/
def usedSum (l : Ledger) (p : Nat) (c : String) : Nat := sumAmounts p c l.allocs

/-- The physical cores of `provider` currently held by allocations. -/
def usedCores (l : Ledger) (p : Nat) : List Nat :=
  l.allocs.foldr (fun a acc => if a.provider = p then a.cores ++ acc else acc) []

/-- Whether a further `amt` for `(provider, class)` fits under the usable
capacity, invariant 1's check for one requested class (decidably; see
`fits_iff` for the rational form). -/
def fits (l : Ledger) (p : Nat) (c : String) (amt : Nat) : Bool :=
  match invOf l p c with
  | some inv => capCmp inv (usedSum l p c + amt)
  | none => decide (usedSum l p c + amt = 0)

/-- Replaces the generation entry of one provider. -/
def setGen (gens : List (Nat × Nat)) (p g : Nat) : List (Nat × Nat) :=
  (p, g) :: gens.filter (fun e => e.1 ≠ p)

/-- Modelled from the spec: the named failures of `ResourceLedger.claim`. -/
inductive ClaimError
  | CapacityExceeded
  | CoreConflict
  | Conflict
deriving DecidableEq

/-- Modelled from the spec: `ResourceLedger.claim(consumer, provider,
resources, cores)`.  `egen` is the generation the caller read; the write is
conditioned on the generation not having changed since that read
(`Conflict`), verifies invariant 1 for every requested class
(`CapacityExceeded`) and that the requested cores are currently free
(`CoreConflict`), then writes all rows for the consumer and increments the
generation in one atomic step. -/
def claim (l : Ledger) (egen consumer provider : Nat)
    (resources : List (String × Nat)) (cores : List Nat) : Except ClaimError Ledger :=
  if genOf l provider ≠ egen then .error .Conflict
  else if resources.any (fun rc => !(fits l provider rc.1 rc.2)) then
    .error .CapacityExceeded
  else if cores.any (fun k => (usedCores l provider).contains k) then
    .error .CoreConflict
  else .ok { l with
    allocs := ⟨consumer, provider, resources, cores⟩ :: l.allocs,
    gens := setGen l.gens provider (egen + 1) }

/-- Modelled from the spec: `ResourceLedger.delete(consumer, provider)` —
idempotent removal of the consumer's allocation row at that provider. -/
def delete (l : Ledger) (consumer provider : Nat) : Ledger :=
  { l with
    allocs := l.allocs.filter fun a => ¬ (a.consumer = consumer ∧ a.provider = provider) }

/-- Modelled from the spec: `ResourceLedger.move(consumer, from_provider,
to_provider, resources)` — creates a new allocation row under a new consumer
id (the migration-record id) at `to_provider` without touching the row at
`from_provider`, which must independently satisfy invariant 1; records the
in-flight migration. -/
def move (l : Ledger) (workload migration fromP toP : Nat)
    (resources : List (String × Nat)) (cores : List Nat) : Except ClaimError Ledger :=
  match claim l (genOf l toP) migration toP resources cores with
  | .ok l' => .ok { l' with migrations := (workload, migration) :: l'.migrations }
  | .error e => .error e

/-- Modelled from the spec: `confirm(workload_id)` — deletes exactly the
source-host row (consumer id = workload id) of the in-flight migration,
leaving the destination row; releases the migration record. -/
def confirm (l : Ledger) (workload : Nat) : Ledger :=
  match l.migrations.lookup workload with
  | some _ => { l with
      allocs := l.allocs.filter (fun a => a.consumer ≠ workload),
      migrations := l.migrations.filter (fun e => e.1 ≠ workload) }
  | none => l

/-- Modelled from the spec: `revert(workload_id)` — deletes exactly the
destination-host row (consumer id = migration id) of the in-flight
migration, leaving the source row; releases the migration record. -/
def revert (l : Ledger) (workload : Nat) : Ledger :=
  match l.migrations.lookup workload with
  | some m => { l with
      allocs := l.allocs.filter (fun a => a.consumer ≠ m),
      migrations := l.migrations.filter (fun e => e.1 ≠ workload) }
  | none => l

/-- Modelled from the spec: the capacity invariant (invariant 1) — for every
`(provider, class)`, the sum of the allocations referencing it is at most
the usable capacity of that pair's inventory. -/
def capOK (l : Ledger) : Prop :=
  ∀ p c, ((usedSum l p c : Nat) : Rat) ≤ usableAt l p c

/-- A ledger mutation a concurrent client can issue: a `claim` carrying the
generation it read (possibly stale), or a `delete`. -/
inductive LOp
  | claimOp (egen consumer provider : Nat)
      (resources : List (String × Nat)) (cores : List Nat)
  | deleteOp (consumer provider : Nat)
deriving DecidableEq

/-- One observable step of the ledger: a failed claim leaves the state
unchanged. -/
def applyOp (l : Ledger) : LOp → Ledger
  | .claimOp egen consumer provider resources cores =>
    match claim l egen consumer provider resources cores with
    | .ok l' => l'
    | .error _ => l
  | .deleteOp consumer provider => delete l consumer provider

/-- An interleaving of claim and delete operations, applied in order. -/
def applyOps (l : Ledger) (ops : List LOp) : Ledger := ops.foldl applyOp l

/- ## TopologyMatcher (modelled from the spec, section 4.1) -/

/-- Modelled from the spec: a host NUMA cell — its NUMA node id, its set of
physical core identifiers, its sibling (hyperthread) pairs and its memory
capacity.  The matcher's implementation is not under the repository's files;
only its functional tests are. -/
structure HostCell where
  id : Nat
  cores : List Nat
  siblings : List (Nat × Nat)
  memory : Nat
deriving DecidableEq

/-- Modelled from the spec: one guest NUMA cell of an instance request — a
required vCPU count and memory amount. -/
structure GuestCell where
  vcpus : Nat
  memory : Nat
deriving DecidableEq

/-- Modelled from the spec: a network attached to the request, externally
mapped to the set of host NUMA node ids it is restricted to (`none`: no
restriction, any node permitted). -/
structure NetworkReq where
  allowed : Option (List Nat)
deriving DecidableEq

/-- Modelled from the spec: an **InstanceNUMARequest** — guest NUMA cells and
the networks attached to the request.  (The CPU/thread-policy refinement of
core selection inside a cell is not modelled; no claim depends on it.) -/
structure InstanceRequest where
  cells : List GuestCell
  networks : List NetworkReq
deriving DecidableEq

/-- Whether a network's allowed-node set permits a host NUMA node. -/
def netAllows (n : NetworkReq) (node : Nat) : Bool :=
  match n.allowed with
  | none => true
  | some nodes => nodes.contains node

/-- The currently-free cores of a host cell, given the pinned-core map the
ledger supplies per cell id. -/
def freeCores (pinned : List (Nat × List Nat)) (c : HostCell) : List Nat :=
  c.cores.filter fun k => ¬ ((pinned.lookup c.id).getD []).contains k

/-- Modelled from the spec: a host cell is eligible for a guest cell only if
(a) its free core count and memory satisfy the guest cell's requirements and
(b) for every network attached to the request, the host cell's NUMA node id
is in that network's allowed-node set. -/
def eligible (pinned : List (Nat × List Nat)) (nets : List NetworkReq)
    (c : HostCell) (g : GuestCell) : Bool :=
  decide (g.vcpus ≤ (freeCores pinned c).length) &&
    decide (g.memory ≤ c.memory) &&
    nets.all (fun n => netAllows n c.id)

/-- Inserts a host cell into a list sorted by ascending cell id. -/
def insertById (c : HostCell) : List HostCell → List HostCell
  | [] => [c]
  | d :: ds => if c.id ≤ d.id then c :: d :: ds else d :: insertById c ds

/-- Sorts host cells by ascending cell id (the deterministic preference
order of the matcher). -/
def sortById (cs : List HostCell) : List HostCell := cs.foldr insertById []

/-- Modelled from the spec: backtracking search for the first feasible
assignment of guest cells to distinct host cells, preferring ascending host
cell id; within a chosen cell the lowest-id free cores are taken.  `cands`
is the remaining preference-ordered candidate list for the head guest cell,
`pool` the host cells still unassigned; `fuel` bounds the recursion (the
caller supplies enough for the search to complete). -/
def assignGo (pinned : List (Nat × List Nat)) (nets : List NetworkReq) :
    Nat → List GuestCell → List HostCell → List HostCell →
    Option (List (Nat × List Nat))
  | _, [], _, _ => some []
  | 0, _ :: _, _, _ => none
  | _ + 1, _ :: _, [], _ => none
  | fuel + 1, g :: gs, c :: cands, pool =>
    if eligible pinned nets c g then
      match assignGo pinned nets fuel gs (pool.erase c) (pool.erase c) with
      | some rest => some ((c.id, (freeCores pinned c).take g.vcpus) :: rest)
      | none => assignGo pinned nets fuel (g :: gs) cands pool
    else assignGo pinned nets fuel (g :: gs) cands pool

/-- Modelled from the spec: the matcher's rejection reasons. -/
inductive RejectionReason
  | insufficientHostCells
  | noCellForNetworks
  | insufficientCores
deriving DecidableEq

/-- Modelled from the spec: the matcher's result — a concrete placement
(host cell id, pinned cores) per guest cell, or a rejection reason. -/
inductive MatchResult
  | Admit (placement : List (Nat × List Nat))
  | reject (reason : RejectionReason)
deriving DecidableEq

/-- Fuel sufficient for `assignGo` to explore the whole search space. -/
def assignFuel (topo : List HostCell) (req : InstanceRequest) : Nat :=
  (req.cells.length + 1) * (topo.length + 1) + 1

/-- The reason reported when the assignment search finds nothing: when no
host cell satisfies every network constraint of a non-empty request, that is
the reason; otherwise the cores did not suffice. -/
def rejectReason (topo : List HostCell) (req : InstanceRequest) : RejectionReason :=
  if topo.all (fun c => ¬ req.networks.all (fun n => netAllows n c.id)) &&
      ¬ req.cells.isEmpty then
    .noCellForNetworks
  else .insufficientCores

/-- Modelled from the spec: `TopologyMatcher.match(topology, request,
pinned_cores_by_cell)` — a pure function from a host topology and an
instance request to a placement or a rejection.  Each guest cell needs a
distinct host cell; host cells are preferred by ascending id. -/
def matchNUMA (topo : List HostCell) (req : InstanceRequest)
    (pinned : List (Nat × List Nat)) : MatchResult :=
  if topo.length < req.cells.length then .reject .insufficientHostCells
  else
    match assignGo pinned req.networks (assignFuel topo req) req.cells
        (sortById topo) (sortById topo) with
    | some a => .Admit a
    | none => .reject (rejectReason topo req)

/- ## QuotaGuard and Scheduler (modelled from the spec, sections 4.3, 4.5) -/

/-- Modelled from the spec: the result of `QuotaGuard.check` — admission, or
a denial carrying the offending class, its limit and the current usage. -/
inductive QuotaResult
  | Admit
  | denied (cls : String) (limit : Nat) (current : Nat)
deriving DecidableEq

/-- Modelled from the spec: `QuotaGuard.check(project, requested)` —
`limitOf` is the externally configured limit per resource class for the
project, `usageOf` the project's current usage per class under the
configured strategy.  The first requested class whose usage plus request
exceeds its limit is denied. -/
def quotaCheck (limitOf usageOf : String → Nat)
    (requested : List (String × Nat)) : QuotaResult :=
  match requested.find? (fun rc => decide (limitOf rc.1 < usageOf rc.1 + rc.2)) with
  | some rc => .denied rc.1 (limitOf rc.1) (usageOf rc.1)
  | none => .Admit

/-- An observable event of one scheduling attempt, in order. -/
inductive SchedEvent
  | quotaChecked
  | claimAttempted (provider : Nat)
deriving DecidableEq

/-- Modelled from the spec: the outcome of one scheduling attempt. -/
inductive SchedResult
  | committed (provider : Nat) (placement : List (Nat × List Nat))
  | quotaDenied (cls : String) (limit : Nat) (current : Nat)
  | noCandidate
deriving DecidableEq

/-- Modelled from the spec: one candidate host, in the externally supplied
ranking order — its resource provider id, its NUMA topology snapshot and the
pinned-core map the ledger reports. -/
structure Candidate where
  provider : Nat
  topo : List HostCell
  pinned : List (Nat × List Nat)
deriving DecidableEq

/-- The cores of a placement, flattened, for the ledger claim. -/
def placementCores (placement : List (Nat × List Nat)) : List Nat :=
  placement.foldr (fun pr acc => pr.2 ++ acc) []

/-- Modelled from the spec: the scheduler's candidate loop — run the matcher
per candidate; on success claim against the ledger; the first successful
claim commits and later candidates are not attempted; a rejection or a
failed claim advances to the next candidate.  Also returns the trace of
observable events. -/
def tryCandidates (req : InstanceRequest) (resources : List (String × Nat))
    (consumer : Nat) : Ledger → List Candidate →
    SchedResult × Ledger × List SchedEvent
  | l, [] => (.noCandidate, l, [])
  | l, cand :: rest =>
    match matchNUMA cand.topo req cand.pinned with
    | .reject _ => tryCandidates req resources consumer l rest
    | .Admit placement =>
      match claim l (genOf l cand.provider) consumer cand.provider resources
          (placementCores placement) with
      | .ok l' => (.committed cand.provider placement, l',
          [.claimAttempted cand.provider])
      | .error _ =>
        match tryCandidates req resources consumer l rest with
        | (r, l', evs) => (r, l', .claimAttempted cand.provider :: evs)

/-- Modelled from the spec: one scheduling attempt — `QuotaGuard.check` is
evaluated strictly before any ledger claim; a denial is terminal and is
returned immediately with no claim attempted. -/
def schedule (limitOf usageOf : String → Nat) (req : InstanceRequest)
    (resources : List (String × Nat)) (consumer : Nat)
    (cands : List Candidate) (l : Ledger) :
    SchedResult × Ledger × List SchedEvent :=
  match quotaCheck limitOf usageOf resources with
  | .denied c lim cur => (.quotaDenied c lim cur, l, [.quotaChecked])
  | .Admit =>
    match tryCandidates req resources consumer l cands with
    | (r, l', evs) => (r, l', .quotaChecked :: evs)

/- ## ReshapeCoordinator (modelled from the spec, section 4.4) -/

/-- Renames every resource entry of `from_class` to `to_class`, keeping the
amount. -/
def renameClass (f t : String) : List (String × Nat) → List (String × Nat)
  | [] => []
  | rc :: rs => (if rc.1 = f then (t, rc.2) else rc) :: renameClass f t rs

/-- The rewrite `reshape` applies to one allocation row: rows of the
reshaped provider reference `to_class` instead of `from_class` with
unchanged amounts; rows of other providers are untouched. -/
def reshapeAlloc (p : Nat) (f t : String) (a : Alloc) : Alloc :=
  ⟨a.consumer, a.provider,
    if a.provider = p then renameClass f t a.resources else a.resources,
    a.cores⟩

/-- The state `reshape` writes in its rewrite step: the new `to_class`
inventory row carrying the old record, every allocation row of the provider
rewritten, the `from_class` inventory row removed. -/
def reshapedLedger (l : Ledger) (p : Nat) (f t : String) (inv : Inventory) : Ledger :=
  { l with
    invs := ((p, t), inv) :: l.invs.filter (fun e => e.1 ≠ (p, f)),
    allocs := l.allocs.map (reshapeAlloc p f t) }

/-- Modelled from the spec: `reshape(provider, from_class, to_class)` —
precondition: the provider's inventory contains `from_class` and not yet
`to_class`; then, atomically, a new `to_class` inventory with the same
`total`/`reserved`/`ratio` is written, every allocation referencing
`from_class` is rewritten to `to_class` with an unchanged amount, and the
`from_class` inventory row is removed.  If `to_class` already exists and
`from_class` does not, the operation is a no-op success.  Anything else
fails. -/
def reshape (l : Ledger) (p : Nat) (f t : String) : Option Ledger :=
  match invOf l p f, invOf l p t with
  | some inv, none => some (reshapedLedger l p f t inv)
  | none, some _ => some l
  | _, _ => none

/-- The migration-time allocation rows of a workload: the rows under the
workload id `w` (source host) or under its migration-record id `m`
(destination host). -/
def rowsFor (l : Ledger) (w m : Nat) : List Alloc :=
  l.allocs.filter fun a => a.consumer = w ∨ a.consumer = m

/- ## Concrete instances used by the witnesses -/

/-- A generic-core inventory: total 8, nothing reserved, ratio 1. -/
def invW : Inventory := ⟨8, 0, 1, 1, 8, 1⟩

/-- A one-provider ledger with the `invW` inventory under class `VCPU` and no
allocations. -/
def ledgerW : Ledger := ⟨[(1, 0)], [((1, "VCPU"), invW)], [], []⟩

/-- A claim of 4 `VCPU` (with cores 0 and 1) followed by its deletion. -/
def opsW : List LOp := [.claimOp 0 7 1 [("VCPU", 4)] [0, 1], .deleteOp 7 1]

/-- Scenario E's provider: generic-core (`VCPU`) inventory of total 8 with one
allocation of amount 4 under consumer 100. -/
def ledgerE : Ledger := ⟨[(1, 5)], [((1, "VCPU"), invW)], [⟨100, 1, [("VCPU", 4)], []⟩], []⟩

/-- A ledger with an in-flight migration of workload 10 (migration record 20):
the source-host row at provider 1 under the workload id and the
destination-host row at provider 2 under the migration id. -/
def ledgerM : Ledger := ⟨[(1, 3), (2, 4)],
  [((1, "VCPU"), invW), ((2, "VCPU"), invW)],
  [⟨10, 1, [("VCPU", 2)], []⟩, ⟨20, 2, [("VCPU", 2)], []⟩],
  [(10, 20)]⟩

/-- The source-host allocation row of `ledgerM`. -/
def allocSrc : Alloc := ⟨10, 1, [("VCPU", 2)], []⟩

/-- The destination-host allocation row of `ledgerM`. -/
def allocDst : Alloc := ⟨20, 2, [("VCPU", 2)], []⟩

/-- Host NUMA cell 0 with four cores. -/
def cell0 : HostCell := ⟨0, [0, 1, 2, 3], [(0, 1), (2, 3)], 1024⟩

/-- Host NUMA cell 1 with four cores. -/
def cell1 : HostCell := ⟨1, [4, 5, 6, 7], [(4, 5), (6, 7)], 1024⟩

/-- Scenario C's network X, restricted to host NUMA node 1. -/
def netX : NetworkReq := ⟨some [1]⟩

/-- Scenario C's network Y, restricted to host NUMA node 0. -/
def netY : NetworkReq := ⟨some [0]⟩

/-- Scenario C's network Z, allowed on host NUMA nodes 0 and 1. -/
def netZ : NetworkReq := ⟨some [0, 1]⟩

/-- One guest cell of 2 vCPUs attached to networks X and Y (disjoint
allowed-node sets). -/
def reqXY : InstanceRequest := ⟨[⟨2, 512⟩], [netX, netY]⟩

/-- One guest cell of 2 vCPUs attached to networks X and Z (common node 1). -/
def reqXZ : InstanceRequest := ⟨[⟨2, 512⟩], [netX, netZ]⟩

/-- A request with two guest NUMA cells and no networks. -/
def reqTwoCells : InstanceRequest := ⟨[⟨1, 256⟩, ⟨1, 256⟩], []⟩

/- ## Helper lemmas -/

lemma capCmp_iff (inv : Inventory) (s : Nat) :
    capCmp inv s = true ↔ ((s : Nat) : Rat) ≤ usable inv := by
  have hden : (0 : Rat) < (inv.allocation_ratio.den : Rat) := by
    exact_mod_cast inv.allocation_ratio.den_pos
  rw [capCmp, decide_eq_true_eq, usable,
    show ((inv.total - inv.reserved : Nat) : Rat) * inv.allocation_ratio =
      (((inv.total - inv.reserved : Nat) : Rat) * (inv.allocation_ratio.num : Rat)) /
        (inv.allocation_ratio.den : Rat) from by rw [mul_div_assoc, Rat.num_div_den],
    le_div_iff₀ hden]
  exact_mod_cast Iff.rfl

lemma fits_iff (l : Ledger) (p : Nat) (c : String) (amt : Nat) :
    fits l p c amt = true ↔ ((usedSum l p c + amt : Nat) : Rat) ≤ usableAt l p c := by
  cases h : invOf l p c with
  | some inv =>
    unfold fits usableAt
    rw [h]
    exact capCmp_iff inv (usedSum l p c + amt)
  | none =>
    unfold fits usableAt
    rw [h]
    show decide (usedSum l p c + amt = 0) = true ↔ ((usedSum l p c + amt : Nat) : Rat) ≤ 0
    rw [decide_eq_true_eq, Nat.cast_nonpos]

lemma mem_of_lookup_eq_some {α β : Type} [BEq α] [LawfulBEq α]
    {xs : List (α × β)} {k : α} {v : β} (h : xs.lookup k = some v) : (k, v) ∈ xs := by
  induction xs with
  | nil => simp [List.lookup] at h
  | cons e rest ih =>
    cases e with
    | mk a b =>
      rw [List.lookup_cons] at h
      cases hbeq : k == a with
      | true =>
        rw [hbeq] at h
        have hk : k = a := by simpa using hbeq
        have hv : b = v := by simpa using h
        subst hk
        subst hv
        exact List.mem_cons_self _ _
      | false =>
        rw [hbeq] at h
        exact List.mem_cons_of_mem _ (ih h)

lemma sumAmounts_filter_le (p : Nat) (c : String) (q : Alloc → Bool) (as : List Alloc) :
    sumAmounts p c (as.filter q) ≤ sumAmounts p c as := by
  induction as with
  | nil => simp [sumAmounts]
  | cons a as ih =>
    rw [List.filter_cons]
    by_cases hq : q a
    · rw [if_pos (by simpa using hq), sumAmounts, sumAmounts]
      exact Nat.add_le_add_left ih _
    · rw [if_neg (by simpa using hq), sumAmounts]
      exact le_trans ih (Nat.le_add_left _ _)

/-- What a successful `claim` did and what it checked. -/
lemma claim_ok_spec {l : Ledger} {egen consumer provider : Nat}
    {resources : List (String × Nat)} {cores : List Nat} {l' : Ledger}
    (h : claim l egen consumer provider resources cores = .ok l') :
    genOf l provider = egen ∧
    l' = { l with
      allocs := ⟨consumer, provider, resources, cores⟩ :: l.allocs,
      gens := setGen l.gens provider (egen + 1) } ∧
    (∀ rc ∈ resources, fits l provider rc.1 rc.2 = true) ∧
    (∀ k ∈ cores, (usedCores l provider).contains k = false) := by
  unfold claim at h
  split_ifs at h with h1 h2 h3
  · refine ⟨by push_neg at h1; exact h1, (Except.ok.inj h).symm, ?_, ?_⟩
    · intro rc hrc
      rcases List.any_eq_false.mp (Bool.eq_false_iff.mpr h2) rc hrc with hfit
      simpa using hfit
    · intro k hk
      exact Bool.eq_false_iff.mpr (List.any_eq_false.mp (Bool.eq_false_iff.mpr h3) k hk)

/-- A claim that fails leaves nothing to observe; a claim that succeeds was
checked: either way one observable step preserves the capacity invariant. -/
lemma capOK_applyOp {l : Ledger} (h : capOK l) (op : LOp) : capOK (applyOp l op) := by
  cases op with
  | deleteOp consumer provider =>
    show capOK (delete l consumer provider)
    intro p c
    have hle : usedSum (delete l consumer provider) p c ≤ usedSum l p c :=
      sumAmounts_filter_le p c _ l.allocs
    have husable : usableAt (delete l consumer provider) p c = usableAt l p c := rfl
    rw [husable]
    exact le_trans (by exact_mod_cast hle) (h p c)
  | claimOp egen consumer provider resources cores =>
    show capOK (match claim l egen consumer provider resources cores with
      | .ok l' => l' | .error _ => l)
    cases hc : claim l egen consumer provider resources cores with
    | error e => exact h
    | ok l' =>
      obtain ⟨-, hl', hfits, -⟩ := claim_ok_spec hc
      subst hl'
      intro p c
      have husable : usableAt { l with
          allocs := ⟨consumer, provider, resources, cores⟩ :: l.allocs,
          gens := setGen l.gens provider (egen + 1) } p c = usableAt l p c := rfl
      rw [husable]
      show ((sumAmounts p c (⟨consumer, provider, resources, cores⟩ :: l.allocs) : Nat) : Rat) ≤
        usableAt l p c
      rw [sumAmounts]
      by_cases hp : provider = p
      · subst hp
        rw [if_pos rfl]
        show ((amountFor ⟨consumer, provider, resources, cores⟩ c + usedSum l provider c : Nat) : Rat) ≤
          usableAt l provider c
        unfold amountFor
        cases hl : List.lookup c resources with
        | none => simpa using h provider c
        | some amt =>
          have hmem : (c, amt) ∈ resources := mem_of_lookup_eq_some hl
          have hfit := (fits_iff l provider c amt).mp (hfits (c, amt) hmem)
          rw [Option.getD_some]
          calc ((amt + usedSum l provider c : Nat) : Rat)
              = ((usedSum l provider c + amt : Nat) : Rat) := by rw [Nat.add_comm]
            _ ≤ usableAt l provider c := hfit
      · rw [if_neg hp]
        simpa using h p c

/-- C1 (as a single inductive step over any operation list). -/
lemma capOK_applyOps {l : Ledger} (h : capOK l) (ops : List LOp) :
    capOK (applyOps l ops) := by
  induction ops generalizing l with
  | nil => exact h
  | cons op ops ih => exact ih (capOK_applyOp h op)

lemma lookup_setGen (gens : List (Nat × Nat)) (p v : Nat) :
    (setGen gens p v).lookup p = some v := by
  simp [setGen, List.lookup_cons]

/-- What a failed `claim` reports and why. -/
lemma claim_error_spec {l : Ledger} {egen consumer provider : Nat}
    {resources : List (String × Nat)} {cores : List Nat} {e : ClaimError}
    (h : claim l egen consumer provider resources cores = .error e) :
    (e = .Conflict ∨ e = .CapacityExceeded ∨ e = .CoreConflict) ∧
    (e = .Conflict → genOf l provider ≠ egen) ∧
    (e = .CapacityExceeded → ∃ rc ∈ resources,
      ¬ (((usedSum l provider rc.1 + rc.2 : Nat) : Rat) ≤ usableAt l provider rc.1)) ∧
    (e = .CoreConflict → ∃ k ∈ cores, k ∈ usedCores l provider) := by
  unfold claim at h
  split_ifs at h with h1 h2 h3
  · have he : e = .Conflict := (Except.error.inj h).symm
    subst he
    refine ⟨Or.inl rfl, fun _ => h1, ?_, ?_⟩
    · intro hx; exact ClaimError.noConfusion hx
    · intro hx; exact ClaimError.noConfusion hx
  · have he : e = .CapacityExceeded := (Except.error.inj h).symm
    subst he
    refine ⟨Or.inr (Or.inl rfl), ?_, ?_, ?_⟩
    · intro hx; exact ClaimError.noConfusion hx
    · intro hx2
      obtain ⟨rc, hrc, hfit⟩ := List.any_eq_true.mp h2
      refine ⟨rc, hrc, fun hle => ?_⟩
      have hfits : fits l provider rc.1 rc.2 = true := (fits_iff l provider rc.1 rc.2).mpr hle
      simp [hfits] at hfit
    · intro hx; exact ClaimError.noConfusion hx
  · have he : e = .CoreConflict := (Except.error.inj h).symm
    subst he
    refine ⟨Or.inr (Or.inr rfl), ?_, ?_, ?_⟩
    · intro hx; exact ClaimError.noConfusion hx
    · intro hx; exact ClaimError.noConfusion hx
    · intro hx3
      obtain ⟨k, hk, hcontains⟩ := List.any_eq_true.mp h3
      exact ⟨k, hk, by simpa using hcontains⟩

lemma lookup_filter_ne {α β : Type} [BEq α] [LawfulBEq α] [DecidableEq α]
    (k : α) (xs : List (α × β)) :
    (xs.filter fun e => e.1 ≠ k).lookup k = none := by
  induction xs with
  | nil => rfl
  | cons e rest ih =>
    rw [List.filter_cons]
    by_cases he : e.1 = k
    · rw [if_neg (by simp [he])]
      exact ih
    · rw [if_pos (by simp [he])]
      cases e with
      | mk a b =>
        rw [List.lookup_cons]
        have hka : (k == a) = false :=
          beq_eq_false_iff_ne.mpr (fun hk => he hk.symm)
        rw [hka]
        exact ih

lemma lookup_rename_to {f t : String} (rs : List (String × Nat))
    (hnone : rs.lookup t = none) :
    (renameClass f t rs).lookup t = rs.lookup f := by
  induction rs with
  | nil => rfl
  | cons rc rest ih =>
    cases rc with
    | mk a v =>
      rw [List.lookup_cons] at hnone
      cases hta : (t == a) with
      | true =>
        rw [hta] at hnone
        cases hnone
      | false =>
        rw [hta] at hnone
        have hrest := ih hnone
        simp only [renameClass]
        by_cases haf : a = f
        · subst haf
          rw [if_pos rfl, List.lookup_cons, List.lookup_cons]
          simp
        · rw [if_neg haf, List.lookup_cons, List.lookup_cons, hta,
            beq_eq_false_iff_ne.mpr (Ne.symm haf)]
          exact hrest

lemma lookup_rename_from {f t : String} (hft : f ≠ t) (rs : List (String × Nat)) :
    (renameClass f t rs).lookup f = none := by
  induction rs with
  | nil => rfl
  | cons rc rest ih =>
    cases rc with
    | mk a v =>
      simp only [renameClass]
      by_cases haf : a = f
      · subst haf
        rw [if_pos rfl, List.lookup_cons, beq_eq_false_iff_ne.mpr hft]
        exact ih
      · rw [if_neg haf, List.lookup_cons, beq_eq_false_iff_ne.mpr (Ne.symm haf)]
        exact ih

lemma invOf_reshaped_to (l : Ledger) (p : Nat) (f t : String) (inv : Inventory) :
    invOf (reshapedLedger l p f t inv) p t = some inv := by
  unfold invOf
  show List.lookup (p, t) (((p, t), inv) :: l.invs.filter (fun e => e.1 ≠ (p, f))) = some inv
  rw [List.lookup_cons]
  simp

lemma invOf_reshaped_from {f t : String} (hft : f ≠ t) (l : Ledger) (p : Nat) (inv : Inventory) :
    invOf (reshapedLedger l p f t inv) p f = none := by
  unfold invOf
  show List.lookup (p, f) (((p, t), inv) :: l.invs.filter (fun e => e.1 ≠ (p, f))) = none
  rw [List.lookup_cons]
  have hne : ((p, f) == (p, t)) = false :=
    beq_eq_false_iff_ne.mpr (fun hp => hft (congrArg Prod.snd hp))
  rw [hne]
  exact lookup_filter_ne (p, f) l.invs

lemma sumAmounts_map_to (p : Nat) {f t : String} (as : List Alloc)
    (hna : ∀ a ∈ as, a.provider = p → a.resources.lookup t = none) :
    sumAmounts p t (as.map (reshapeAlloc p f t)) = sumAmounts p f as := by
  induction as with
  | nil => rfl
  | cons a as ih =>
    rw [List.map_cons, sumAmounts, sumAmounts,
      ih (fun b hb hbp => hna b (List.mem_cons_of_mem _ hb) hbp)]
    congr 1
    show (if a.provider = p then amountFor (reshapeAlloc p f t a) t else 0) =
      (if a.provider = p then amountFor a f else 0)
    by_cases hp : a.provider = p
    · rw [if_pos hp, if_pos hp]
      unfold amountFor reshapeAlloc
      show ((if a.provider = p then renameClass f t a.resources else a.resources).lookup t).getD 0 =
        (a.resources.lookup f).getD 0
      rw [if_pos hp, lookup_rename_to a.resources (hna a (List.mem_cons_self a as) hp)]
    · rw [if_neg hp, if_neg hp]

lemma sumAmounts_map_from (p : Nat) {f t : String} (hft : f ≠ t) (as : List Alloc) :
    sumAmounts p f (as.map (reshapeAlloc p f t)) = 0 := by
  induction as with
  | nil => rfl
  | cons a as ih =>
    rw [List.map_cons, sumAmounts, ih, Nat.add_zero]
    show (if a.provider = p then amountFor (reshapeAlloc p f t a) f else 0) = 0
    by_cases hp : a.provider = p
    · rw [if_pos hp]
      unfold amountFor reshapeAlloc
      show ((if a.provider = p then renameClass f t a.resources else a.resources).lookup f).getD 0 = 0
      rw [if_pos hp, lookup_rename_from hft]
      rfl
    · rw [if_neg hp]
  
lemma map_consumer_reshape (p : Nat) (f t : String) (as : List Alloc) :
    (as.map (reshapeAlloc p f t)).map Alloc.consumer = as.map Alloc.consumer := by
  induction as with
  | nil => rfl
  | cons a as ih => rw [List.map_cons, List.map_cons, List.map_cons, ih]; rfl

lemma reshapeAlloc_of_ne {a : Alloc} {p : Nat} (f t : String) (hp : a.provider ≠ p) :
    reshapeAlloc p f t a = a := by
  unfold reshapeAlloc
  rw [if_neg hp]

lemma sumAmounts_map_other {p₀ : Nat} (p : Nat) (f t : String) (c : String) (as : List Alloc)
    (hne : p ≠ p₀) :
    sumAmounts p c (as.map (reshapeAlloc p₀ f t)) = sumAmounts p c as := by
  induction as with
  | nil => rfl
  | cons a as ih =>
    rw [List.map_cons, sumAmounts, sumAmounts, ih]
    congr 1
    show (if a.provider = p then amountFor (reshapeAlloc p₀ f t a) c else 0) =
      (if a.provider = p then amountFor a c else 0)
    by_cases hp : a.provider = p
    · rw [if_pos hp, if_pos hp,
        reshapeAlloc_of_ne f t (by rw [hp]; exact hne)]
    · rw [if_neg hp, if_neg hp]

lemma mem_insertById {x c : HostCell} :
    ∀ {l : List HostCell}, x ∈ insertById c l → x = c ∨ x ∈ l := by
  intro l
  induction l with
  | nil =>
    intro h
    rw [insertById] at h
    exact Or.inl (by simpa using h)
  | cons d ds ih =>
    intro h
    rw [insertById] at h
    by_cases hle : c.id ≤ d.id
    · rw [if_pos hle] at h
      rcases List.mem_cons.mp h with h1 | h2
      · exact Or.inl h1
      · exact Or.inr h2
    · rw [if_neg hle] at h
      rcases List.mem_cons.mp h with h1 | h2
      · exact Or.inr (List.mem_cons.mpr (Or.inl h1))
      · rcases ih h2 with h3 | h4
        · exact Or.inl h3
        · exact Or.inr (List.mem_cons.mpr (Or.inr h4))

lemma mem_sortById {x : HostCell} :
    ∀ {cs : List HostCell}, x ∈ sortById cs → x ∈ cs := by
  intro cs
  induction cs with
  | nil => intro h; exact absurd h (List.not_mem_nil x)
  | cons c cs ih =>
    intro h
    rcases mem_insertById h with h1 | h2
    · exact h1 ▸ List.mem_cons_self _ _
    · exact List.mem_cons_of_mem _ (ih h2)

/-- Every cell the assignment search places was taken from the candidate or
pool lists and satisfied the eligibility check, in particular every network's
allowed-node constraint. -/
lemma assignGo_networks (pinned : List (Nat × List Nat)) (nets : List NetworkReq)
    (fuel : Nat) :
    ∀ (gs : List GuestCell) (cands pool : List HostCell) (a : List (Nat × List Nat)),
      assignGo pinned nets fuel gs cands pool = some a →
      ∀ pr ∈ a, ∃ ch : HostCell, (ch ∈ cands ∨ ch ∈ pool) ∧ ch.id = pr.1 ∧
        nets.all (fun n => netAllows n ch.id) = true := by
  induction fuel with
  | zero =>
    intro gs cands pool a h pr hpr
    cases gs with
    | nil =>
      have ha : a = [] := (Option.some.inj h).symm
      subst ha
      cases hpr
    | cons g gs => cases h
  | succ fuel ih =>
    intro gs cands pool a h pr hpr
    cases gs with
    | nil =>
      have ha : a = [] := (Option.some.inj h).symm
      subst ha
      cases hpr
    | cons g gs =>
      cases cands with
      | nil => cases h
      | cons c cands =>
        have h' : (if eligible pinned nets c g then
            match assignGo pinned nets fuel gs (pool.erase c) (pool.erase c) with
            | some rest => some ((c.id, (freeCores pinned c).take g.vcpus) :: rest)
            | none => assignGo pinned nets fuel (g :: gs) cands pool
          else assignGo pinned nets fuel (g :: gs) cands pool) = some a := h
        by_cases he : eligible pinned nets c g
        · rw [if_pos he] at h'
          cases hrec : assignGo pinned nets fuel gs (pool.erase c) (pool.erase c) with
          | some rest =>
            rw [hrec] at h'
            have ha : ((c.id, (freeCores pinned c).take g.vcpus) :: rest) = a :=
              Option.some.inj h'
            subst ha
            rcases List.mem_cons.mp hpr with hpr1 | hpr2
            · subst hpr1
              refine ⟨c, Or.inl (List.mem_cons_self _ _), rfl, ?_⟩
              have he' := he
              simp only [eligible, Bool.and_eq_true, decide_eq_true_eq] at he'
              exact he'.2
            · obtain ⟨ch, hch, hid, hnets⟩ :=
                ih gs (pool.erase c) (pool.erase c) rest hrec pr hpr2
              refine ⟨ch, Or.inr ?_, hid, hnets⟩
              rcases hch with hch | hch
              · exact List.erase_subset _ _ hch
              · exact List.erase_subset _ _ hch
          | none =>
            rw [hrec] at h'
            obtain ⟨ch, hch, hid, hnets⟩ := ih (g :: gs) cands pool a h' pr hpr
            refine ⟨ch, ?_, hid, hnets⟩
            rcases hch with hch | hch
            · exact Or.inl (List.mem_cons_of_mem _ hch)
            · exact Or.inr hch
        · rw [if_neg he] at h'
          obtain ⟨ch, hch, hid, hnets⟩ := ih (g :: gs) cands pool a h' pr hpr
          refine ⟨ch, ?_, hid, hnets⟩
          rcases hch with hch | hch
          · exact Or.inl (List.mem_cons_of_mem _ hch)
          · exact Or.inr hch

/-- The candidate loop of the scheduler never performs a quota check. -/
lemma tryCandidates_no_quota (req : InstanceRequest) (resources : List (String × Nat))
    (consumer : Nat) :
    ∀ (cands : List Candidate) (l : Ledger),
      SchedEvent.quotaChecked ∉ (tryCandidates req resources consumer l cands).2.2 := by
  intro cands
  induction cands with
  | nil =>
    intro l
    simp [tryCandidates]
  | cons cand rest ih =>
    intro l
    cases hm : matchNUMA cand.topo req cand.pinned with
    | reject r =>
      have hstep : tryCandidates req resources consumer l (cand :: rest) =
          tryCandidates req resources consumer l rest := by
        show (match matchNUMA cand.topo req cand.pinned with
          | .reject _ => tryCandidates req resources consumer l rest
          | .Admit placement =>
            match claim l (genOf l cand.provider) consumer cand.provider resources
                (placementCores placement) with
            | .ok l' => (.committed cand.provider placement, l',
                [.claimAttempted cand.provider])
            | .error _ =>
              match tryCandidates req resources consumer l rest with
              | (r, l', evs) => (r, l', .claimAttempted cand.provider :: evs)) =
          tryCandidates req resources consumer l rest
        rw [hm]
      rw [hstep]
      exact ih l
    | Admit placement =>
      have hstep : tryCandidates req resources consumer l (cand :: rest) =
          (match claim l (genOf l cand.provider) consumer cand.provider resources
              (placementCores placement) with
            | .ok l' => (.committed cand.provider placement, l',
                [.claimAttempted cand.provider])
            | .error _ =>
              match tryCandidates req resources consumer l rest with
              | (r, l', evs) => (r, l', .claimAttempted cand.provider :: evs)) := by
        show (match matchNUMA cand.topo req cand.pinned with
          | .reject _ => tryCandidates req resources consumer l rest
          | .Admit placement =>
            match claim l (genOf l cand.provider) consumer cand.provider resources
                (placementCores placement) with
            | .ok l' => (.committed cand.provider placement, l',
                [.claimAttempted cand.provider])
            | .error _ =>
              match tryCandidates req resources consumer l rest with
              | (r, l', evs) => (r, l', .claimAttempted cand.provider :: evs)) = _
        rw [hm]
      rw [hstep]
      cases hc : claim l (genOf l cand.provider) consumer cand.provider resources
          (placementCores placement) with
      | ok l' => simp
      | error e =>
        rcases htc : tryCandidates req resources consumer l rest with ⟨r, l', evs⟩
        have hih := ih l
        rw [htc] at hih
        show SchedEvent.quotaChecked ∉ SchedEvent.claimAttempted cand.provider :: evs
        intro hmem
        rcases List.mem_cons.mp hmem with h1 | h2
        · cases h1
        · exact hih h2

lemma confirm_allocs {l : Ledger} {w m : Nat} (hlk : l.migrations.lookup w = some m) :
    (confirm l w).allocs = l.allocs.filter (fun a => a.consumer ≠ w) := by
  unfold confirm
  rw [hlk]

lemma revert_allocs {l : Ledger} {w m : Nat} (hlk : l.migrations.lookup w = some m) :
    (revert l w).allocs = l.allocs.filter (fun a => a.consumer ≠ m) := by
  unfold revert
  rw [hlk]

lemma filter_sel_filter_ne (l : Ledger) (w m x : Nat) :
    ((l.allocs.filter fun a => a.consumer ≠ x).filter
        fun a => a.consumer = w ∨ a.consumer = m)
      = (rowsFor l w m).filter fun a => a.consumer ≠ x := by
  unfold rowsFor
  rw [List.filter_filter, List.filter_filter]
  congr 1
  funext a
  rw [Bool.and_comm]

lemma capOK_ledgerW : capOK ledgerW := by
  intro p c
  have h0 : usedSum ledgerW p c = 0 := rfl
  rw [h0]
  unfold usableAt
  cases h : invOf ledgerW p c with
  | none => simp
  | some inv =>
    have hinv : inv = invW := by
      replace h : List.lookup (p, c) [((1, "VCPU"), invW)] = some inv := h
      rw [List.lookup_cons] at h
      cases hb : ((p, c) == ((1 : Nat), "VCPU")) with
      | false =>
        rw [hb] at h
        cases h
      | true =>
        rw [hb] at h
        exact (Option.some.inj h).symm
    subst hinv
    show ((0 : Nat) : Rat) ≤ usable invW
    norm_num [usable, invW]

/- ## The claims -/

/-- C1: for every resource provider and every resource class, at every
instant a reader can observe — i.e. after any interleaving of concurrent
claim (with possibly stale generation reads) and delete operations applied
to a ledger satisfying the capacity invariant — the sum of all allocation
amounts referencing that `(provider, class)` pair is at most the usable
capacity `(total − reserved) × allocation_ratio` of that pair's
inventory. -/
theorem c1_capacity_invariant (l : Ledger) (ops : List LOp) (h : capOK l)
    (p : Nat) (c : String) :
    ((usedSum (applyOps l ops) p c : Nat) : Rat) ≤ usableAt (applyOps l ops) p c :=
  capOK_applyOps h ops p c

theorem c1_witness :
    ((usedSum (applyOps ledgerW opsW) 1 "VCPU" : Nat) : Rat) ≤
      usableAt (applyOps ledgerW opsW) 1 "VCPU" :=
  c1_capacity_invariant ledgerW opsW capOK_ledgerW 1 "VCPU"

/-- C2: every invocation of `claim` either writes all the consumer's
allocation rows and increments the provider's generation in one atomic step
conditioned on the generation being unchanged since the caller's read, or
leaves the ledger unchanged and fails with exactly one of the named errors —
`Conflict` only when the generation check fails, `CapacityExceeded` only
when some requested class lacks headroom, `CoreConflict` only when some
requested core is not free; no partial allocation is ever visible. -/
theorem c2_claim_atomic_or_named_error (l : Ledger) (egen consumer provider : Nat)
    (resources : List (String × Nat)) (cores : List Nat) :
    (∀ l', claim l egen consumer provider resources cores = .ok l' →
      genOf l provider = egen ∧
      l' = { l with
        allocs := ⟨consumer, provider, resources, cores⟩ :: l.allocs,
        gens := setGen l.gens provider (egen + 1) } ∧
      genOf l' provider = egen + 1) ∧
    (∀ e, claim l egen consumer provider resources cores = .error e →
      applyOp l (.claimOp egen consumer provider resources cores) = l ∧
      (e = .Conflict ∨ e = .CapacityExceeded ∨ e = .CoreConflict) ∧
      (e = .Conflict → genOf l provider ≠ egen) ∧
      (e = .CapacityExceeded → ∃ rc ∈ resources,
        ¬ (((usedSum l provider rc.1 + rc.2 : Nat) : Rat) ≤ usableAt l provider rc.1)) ∧
      (e = .CoreConflict → ∃ k ∈ cores, k ∈ usedCores l provider)) := by
  constructor
  · intro l' h
    obtain ⟨hgen, hl', -, -⟩ := claim_ok_spec h
    refine ⟨hgen, hl', ?_⟩
    subst hl'
    show ((setGen l.gens provider (egen + 1)).lookup provider).getD 0 = egen + 1
    rw [lookup_setGen]
    rfl
  · intro e h
    have herr := claim_error_spec h
    refine ⟨?_, herr.1, herr.2.1, herr.2.2.1, herr.2.2.2⟩
    show (match claim l egen consumer provider resources cores with
      | .ok l' => l' | .error _ => l) = l
    rw [h]

/-- C3: applying `reshape(p, from, to)` twice yields exactly the state of
applying it once; in particular, when `to_class` already exists and
`from_class` does not, `reshape` is a no-op that reports success. -/
theorem c3_reshape_idempotent (l : Ledger) (p : Nat) (f t : String) :
    (reshape l p f t).bind (fun l2 => reshape l2 p f t) = reshape l p f t ∧
    (invOf l p f = none → ∀ inv, invOf l p t = some inv → reshape l p f t = some l) := by
  constructor
  · cases hf : invOf l p f with
    | some inv =>
      cases ht : invOf l p t with
      | some inv2 =>
        have hr : reshape l p f t = none := by
          unfold reshape
          rw [hf, ht]
        rw [hr]
        rfl
      | none =>
        have hft : f ≠ t := by
          intro he
          subst he
          rw [hf] at ht
          cases ht
        have hr : reshape l p f t = some (reshapedLedger l p f t inv) := by
          unfold reshape
          rw [hf, ht]
        rw [hr]
        show reshape (reshapedLedger l p f t inv) p f t = some (reshapedLedger l p f t inv)
        unfold reshape
        rw [invOf_reshaped_from hft l p inv, invOf_reshaped_to l p f t inv]
    | none =>
      cases ht : invOf l p t with
      | some inv =>
        have hr : reshape l p f t = some l := by
          unfold reshape
          rw [hf, ht]
        rw [hr]
        show reshape l p f t = some l
        exact hr
      | none =>
        have hr : reshape l p f t = none := by
          unfold reshape
          rw [hf, ht]
        rw [hr]
        rfl
  · intro hf inv ht
    unfold reshape
    rw [hf, ht]

lemma lookup_rename_other {f t c : String} (hcf : c ≠ f) (hct : c ≠ t)
    (rs : List (String × Nat)) :
    (renameClass f t rs).lookup c = rs.lookup c := by
  induction rs with
  | nil => rfl
  | cons rc rest ih =>
    cases rc with
    | mk a v =>
      simp only [renameClass]
      by_cases haf : a = f
      · subst haf
        rw [if_pos rfl, List.lookup_cons, List.lookup_cons,
          beq_eq_false_iff_ne.mpr hct, beq_eq_false_iff_ne.mpr hcf]
        exact ih
      · rw [if_neg haf, List.lookup_cons, List.lookup_cons]
        cases hca : (c == a) with
        | true => rfl
        | false => exact ih

lemma forall2_map_self {P : Alloc → Alloc → Prop} (g : Alloc → Alloc) :
    ∀ (as : List Alloc), (∀ a ∈ as, P a (g a)) → List.Forall₂ P as (as.map g) := by
  intro as
  induction as with
  | nil =>
    intro _
    exact List.Forall₂.nil
  | cons a as ih =>
    intro h
    exact List.Forall₂.cons (h a (List.mem_cons_self a as))
      (ih fun b hb => h b (List.mem_cons_of_mem _ hb))

/-- C4: for a provider whose inventory contains `from_class` and not
`to_class` (and whose allocations do not yet reference `to_class`),
`reshape` succeeds and afterwards the `to_class` inventory is exactly the
old `from_class` record (same total, reserved, allocation_ratio); the old
and new allocation lists correspond row by row — every allocation keeps its
consumer, provider and cores, a row of the reshaped provider now carries
under `to_class` exactly the amount it carried under `from_class` (other
classes unchanged, nothing left under `from_class`), and a row of any other
provider is entirely unchanged; aggregate usage transfers accordingly; and
the `from_class` inventory row is entirely absent. -/
theorem c4_reshape_rewrites_accounting (l : Ledger) (p : Nat) (f t : String)
    (inv : Inventory) (hf : invOf l p f = some inv) (ht : invOf l p t = none)
    (hna : ∀ a ∈ l.allocs, a.provider = p → a.resources.lookup t = none) :
    ∃ l2, reshape l p f t = some l2 ∧
      invOf l2 p t = some inv ∧
      invOf l2 p f = none ∧
      List.Forall₂ (fun a a' =>
        a'.consumer = a.consumer ∧ a'.provider = a.provider ∧ a'.cores = a.cores ∧
        (a.provider = p → amountFor a' t = amountFor a f ∧ amountFor a' f = 0 ∧
          ∀ c, c ≠ f → c ≠ t → amountFor a' c = amountFor a c) ∧
        (a.provider ≠ p → a' = a)) l.allocs l2.allocs ∧
      usedSum l2 p t = usedSum l p f ∧
      usedSum l2 p f = 0 ∧
      l2.allocs.map Alloc.consumer = l.allocs.map Alloc.consumer ∧
      (∀ q c, q ≠ p → usedSum l2 q c = usedSum l q c) ∧
      (∀ a ∈ l.allocs, a.provider ≠ p → a ∈ l2.allocs) := by
  have hft : f ≠ t := by
    intro he
    subst he
    rw [hf] at ht
    cases ht
  refine ⟨reshapedLedger l p f t inv, ?_, invOf_reshaped_to l p f t inv,
    invOf_reshaped_from hft l p inv, ?_, ?_, ?_, ?_, ?_, ?_⟩
  · unfold reshape
    rw [hf, ht]
  · show List.Forall₂ _ l.allocs (l.allocs.map (reshapeAlloc p f t))
    apply forall2_map_self
    intro a ha
    refine ⟨rfl, rfl, rfl, ?_, ?_⟩
    · intro hp
      have hlt : a.resources.lookup t = none := hna a ha hp
      refine ⟨?_, ?_, ?_⟩
      · show ((if a.provider = p then renameClass f t a.resources
            else a.resources).lookup t).getD 0 = (a.resources.lookup f).getD 0
        rw [if_pos hp, lookup_rename_to a.resources hlt]
      · show ((if a.provider = p then renameClass f t a.resources
            else a.resources).lookup f).getD 0 = 0
        rw [if_pos hp, lookup_rename_from hft]
        rfl
      · intro c hcf hct
        show ((if a.provider = p then renameClass f t a.resources
            else a.resources).lookup c).getD 0 = (a.resources.lookup c).getD 0
        rw [if_pos hp, lookup_rename_other hcf hct]
    · intro hp
      exact reshapeAlloc_of_ne f t hp
  · exact sumAmounts_map_to p l.allocs hna
  · exact sumAmounts_map_from p hft l.allocs
  · exact map_consumer_reshape p f t l.allocs
  · intro q c hq
    exact sumAmounts_map_other q f t c l.allocs hq
  · intro a ha hap
    show a ∈ l.allocs.map (reshapeAlloc p f t)
    exact reshapeAlloc_of_ne f t hap ▸ List.mem_map_of_mem _ ha

theorem c4_witness :
    ∃ l2, reshape ledgerE 1 "VCPU" "PCPU" = some l2 ∧
      invOf l2 1 "PCPU" = some invW ∧
      invOf l2 1 "VCPU" = none ∧
      List.Forall₂ (fun a a' =>
        a'.consumer = a.consumer ∧ a'.provider = a.provider ∧ a'.cores = a.cores ∧
        (a.provider = 1 → amountFor a' "PCPU" = amountFor a "VCPU" ∧
          amountFor a' "VCPU" = 0 ∧
          ∀ c, c ≠ "VCPU" → c ≠ "PCPU" → amountFor a' c = amountFor a c) ∧
        (a.provider ≠ 1 → a' = a)) ledgerE.allocs l2.allocs ∧
      usedSum l2 1 "PCPU" = usedSum ledgerE 1 "VCPU" ∧
      usedSum l2 1 "VCPU" = 0 ∧
      l2.allocs.map Alloc.consumer = ledgerE.allocs.map Alloc.consumer ∧
      (∀ q c, q ≠ 1 → usedSum l2 q c = usedSum ledgerE q c) ∧
      (∀ a ∈ ledgerE.allocs, a.provider ≠ 1 → a ∈ l2.allocs) :=
  c4_reshape_rewrites_accounting ledgerE 1 "VCPU" "PCPU" invW (by decide) (by decide)
    (by decide)

/-- C5: for every host topology with exactly one NUMA cell — whatever its
core count — and every request with two guest NUMA cells, the matcher
rejects with the insufficient-distinct-host-cells reason. -/
theorem c5_two_guest_cells_one_host_cell_rejected (c : HostCell)
    (req : InstanceRequest) (pinned : List (Nat × List Nat))
    (h : req.cells.length = 2) :
    matchNUMA [c] req pinned = .reject .insufficientHostCells := by
  unfold matchNUMA
  rw [if_pos (by simp [h])]

theorem c5_witness :
    matchNUMA [cell0] reqTwoCells [] = .reject .insufficientHostCells :=
  c5_two_guest_cells_one_host_cell_rejected cell0 reqTwoCells [] rfl

/-- C6: a host cell is placed only if, for every network attached to the
request, the cell's NUMA node id is in that network's allowed-node set; in
particular the single-cell request attached to networks with disjoint
allowed-node sets `{1}` and `{0}` is rejected, and with sets `{1}` and
`{0, 1}` it is admitted on node 1. -/
theorem c6_network_affinity :
    (∀ (topo : List HostCell) (req : InstanceRequest) (pinned : List (Nat × List Nat))
        (a : List (Nat × List Nat)), matchNUMA topo req pinned = .Admit a →
      ∀ pr ∈ a, ∃ ch ∈ topo, ch.id = pr.1 ∧
        ∀ n ∈ req.networks, netAllows n ch.id = true) ∧
    matchNUMA [cell0, cell1] reqXY [] = .reject .noCellForNetworks ∧
    matchNUMA [cell0, cell1] reqXZ [] = .Admit [(1, [4, 5])] := by
  refine ⟨?_, by decide, by decide⟩
  intro topo req pinned a h pr hpr
  unfold matchNUMA at h
  by_cases hlen : topo.length < req.cells.length
  · rw [if_pos hlen] at h
    cases h
  · rw [if_neg hlen] at h
    cases hassign : assignGo pinned req.networks (assignFuel topo req) req.cells
        (sortById topo) (sortById topo) with
    | some a' =>
      rw [hassign] at h
      have ha : a' = a := MatchResult.Admit.inj h
      subst ha
      obtain ⟨ch, hch, hid, hnets⟩ := assignGo_networks pinned req.networks
        (assignFuel topo req) req.cells (sortById topo) (sortById topo) a' hassign pr hpr
      have hmem : ch ∈ topo := by
        rcases hch with hch | hch
        · exact mem_sortById hch
        · exact mem_sortById hch
      exact ⟨ch, hmem, hid, fun n hn => List.all_eq_true.mp hnets n hn⟩
    | none =>
      rw [hassign] at h
      cases h

/-- C7: in a state with an in-flight migration — exactly two allocation rows
for the workload, the source-host row under the workload id and the
destination-host row under the migration-record id — `confirm` deletes
exactly the source row and `revert` deletes exactly the destination row,
each leaving the other as the workload's sole allocation; neither ever
removes any row under the other consumer id. -/
theorem c7_migration_rows_confirm_revert (l : Ledger) (w m : Nat) (A B : Alloc)
    (hlk : l.migrations.lookup w = some m) (hwm : w ≠ m)
    (hA : A.consumer = w) (hB : B.consumer = m)
    (hrows : rowsFor l w m = [A, B]) :
    rowsFor (confirm l w) w m = [B] ∧
    rowsFor (revert l w) w m = [A] ∧
    (∀ a ∈ l.allocs, a.consumer ≠ w → a ∈ (confirm l w).allocs) ∧
    (∀ a ∈ l.allocs, a.consumer ≠ m → a ∈ (revert l w).allocs) := by
  refine ⟨?_, ?_, ?_, ?_⟩
  · unfold rowsFor
    rw [confirm_allocs hlk, filter_sel_filter_ne, hrows]
    simp [hA, hB, Ne.symm hwm]
  · unfold rowsFor
    rw [revert_allocs hlk, filter_sel_filter_ne, hrows]
    simp [hA, hB, hwm]
  · intro a ha hne
    rw [confirm_allocs hlk]
    exact List.mem_filter.mpr ⟨ha, by simpa using hne⟩
  · intro a ha hne
    rw [revert_allocs hlk]
    exact List.mem_filter.mpr ⟨ha, by simpa using hne⟩

theorem c7_witness :
    rowsFor (confirm ledgerM 10) 10 20 = [allocDst] ∧
    rowsFor (revert ledgerM 10) 10 20 = [allocSrc] ∧
    (∀ a ∈ ledgerM.allocs, a.consumer ≠ 10 → a ∈ (confirm ledgerM 10).allocs) ∧
    (∀ a ∈ ledgerM.allocs, a.consumer ≠ 20 → a ∈ (revert ledgerM 10).allocs) :=
  c7_migration_rows_confirm_revert ledgerM 10 20 allocSrc allocDst (by decide)
    (by decide) rfl rfl (by decide)

/-- C8: the matcher is a pure deterministic function — two invocations on
identical (topology, request, pinned-core) inputs return identical results,
the same accept/reject decision and, on acceptance, the same host-cell and
core assignment. -/
theorem c8_matcher_deterministic (t₁ t₂ : List HostCell) (r₁ r₂ : InstanceRequest)
    (p₁ p₂ : List (Nat × List Nat)) (ht : t₁ = t₂) (hr : r₁ = r₂) (hp : p₁ = p₂) :
    matchNUMA t₁ r₁ p₁ = matchNUMA t₂ r₂ p₂ := by
  subst ht
  subst hr
  subst hp
  rfl

theorem c8_witness :
    matchNUMA [cell0, cell1] reqXZ [] = matchNUMA [cell0, cell1] reqXZ [] :=
  c8_matcher_deterministic [cell0, cell1] [cell0, cell1] reqXZ reqXZ [] [] rfl rfl rfl

/-- C9: for every scheduling request the quota check is evaluated strictly
before any ledger claim (it is the first observable event and the candidate
loop never re-checks), and a denial is terminal: the result is returned
immediately carrying the offending class, its limit and the current usage,
the ledger is unchanged, and no claim is attempted. -/
theorem c9_quota_checked_before_claims (limitOf usageOf : String → Nat)
    (req : InstanceRequest) (resources : List (String × Nat)) (consumer : Nat)
    (cands : List Candidate) (l : Ledger) :
    ((schedule limitOf usageOf req resources consumer cands l).2.2.head? =
      some SchedEvent.quotaChecked) ∧
    (SchedEvent.quotaChecked ∉
      (schedule limitOf usageOf req resources consumer cands l).2.2.tail) ∧
    (∀ c lim cur, quotaCheck limitOf usageOf resources = .denied c lim cur →
      schedule limitOf usageOf req resources consumer cands l =
        (.quotaDenied c lim cur, l, [SchedEvent.quotaChecked])) := by
  unfold schedule
  cases hq : quotaCheck limitOf usageOf resources with
  | denied c lim cur =>
    refine ⟨rfl, by simp, ?_⟩
    intro c' lim' cur' h
    injection h with h1 h2 h3
    subst h1
    subst h2
    subst h3
    rfl
  | Admit =>
    rcases htc : tryCandidates req resources consumer l cands with ⟨r, l', evs⟩
    refine ⟨rfl, ?_, ?_⟩
    · have hnq := tryCandidates_no_quota req resources consumer cands l
      rw [htc] at hnq
      simpa using hnq
    · intro c lim cur h
      cases h

/-- C10: `list_rules()` returns the fixed module-level list of exactly nine
`RuleDefault` entries, and every `rule:`-reference inside any of its check
strings (in particular the composite `system_admin_or_owner` and
`system_or_project_reader` expressions) names a rule defined in the same
list, so the returned rule set is closed under its own rule references. -/
theorem c10_list_rules_fixed_and_closed :
    list_rules = rules ∧ list_rules.length = 9 ∧
    ∀ r ∈ list_rules, ∀ n ∈ ruleRefs r.check_str, n ∈ list_rules.map RuleDefault.name := by
  refine ⟨rfl, rfl, ?_⟩
  decide
